import Mathlib

/-!
Shallow embedding of `reconcile.py` (sortable_matcher): a pipeline that
resolves marketplace listings to canonical catalog products.

Conventions of the embedding:
* Python floats are modelled as exact rationals (`ℚ`); prices arrive already
  parsed (reading the decimal string is an I/O concern outside the core).
* Python dictionaries are modelled as association lists; `defaultdict`
  behaviour is captured by the explicit update helpers below.  Python `set`
  iteration order is unspecified, so functions that iterate over sets take a
  list and the iteration order is the list order (deduplicated on entry, as
  `set(...)` deduplicates).
* A Python `KeyError` (unhandled lookup failure) is modelled by `Option`:
  `none` is an aborted run.
* `math.log` appears only inside the two weight tables; the control flow of
  the pipeline never branches on a weight other than through comparisons of
  accumulated scores, so the weight construction is parameterised by the
  (real-valued, here rational-valued) logarithm `mlog`.  `math.sqrt` in the
  cost pruner is eliminated by comparing squares; the bridging lemmas
  `sqrtLt_iff` and `ltSqrtMul_iff` below prove the rational reformulation
  equivalent to the `Real.sqrt` inequalities of the source.
-/

namespace SortableMatcher

/-- Characters of `pat` occur at the start of `s` (Python `s.startswith(pat)`
on the character lists). -/
def charsStart : List Char → List Char → Bool
  | [], _ => true
  | _ :: _, [] => false
  | p :: ps, c :: cs => p == c && charsStart ps cs

/-- `pat` occurs as a contiguous substring of `s` (Python `pat in s`). -/
def charsContain (pat : List Char) : List Char → Bool
  | [] => charsStart pat []
  | c :: cs => charsStart pat (c :: cs) || charsContain pat cs

/-- Python `pat in s` on strings. -/
def pyContains (s pat : String) : Bool := charsContain pat.data s.data

/-- Python `s.upper()` (ASCII, which covers the catalog data). -/
def pyUpper (s : String) : String := String.mk (s.data.map Char.toUpper)

/-- Helper for `pySplit`: accumulate the current word (reversed) while
scanning. -/
def pySplitAux : List Char → List Char → List (List Char)
  | cur, [] => if cur.isEmpty then [] else [cur.reverse]
  | cur, c :: cs =>
    if c.isWhitespace then
      if cur.isEmpty then pySplitAux [] cs else cur.reverse :: pySplitAux [] cs
    else pySplitAux (c :: cur) cs

/-- Python `s.split()` with no argument: split on whitespace runs, dropping
empty pieces. -/
def pySplit (s : String) : List String := (pySplitAux [] s.data).map String.mk

/-- Python `s.strip()`: drop leading and trailing whitespace. -/
def pyStrip (s : String) : String :=
  String.mk (((s.data.dropWhile Char.isWhitespace).reverse.dropWhile Char.isWhitespace).reverse)

/-- Python `''.join(l)`. -/
def pyJoin (l : List String) : String := String.mk (l.map String.data).flatten

/-- `normalize(s)` from the source: uppercase, then strip out spaces,
underscores and hyphens — characters that might get omitted from product
names. -/
def normalize (s : String) : String :=
  String.mk ((pyUpper s).data.filter (fun c => !(c == ' ' || c == '_' || c == '-')))

/-- `ngrams(n, bits)` from the source: for every window of `n` consecutive
words join them, normalize, and keep the result unless it strips to the empty
string.  (`xrange(len(bits) - n + 1)` is empty when `len(bits) + 1 ≤ n`,
which truncated `Nat` subtraction reproduces.) -/
def ngrams (n : Nat) (bits : List String) : List String :=
  ((List.range (bits.length + 1 - n)).map
      (fun i => normalize (pyJoin ((bits.drop i).take n)))).filter
    (fun r => !(pyStrip r).data.isEmpty)

/-- A marketplace listing.  The diagnostic annotations the driver writes into
the record (`score`, `match_score`, `no-hits`, …) are a reporting side
channel and are not part of the core record. -/
structure Listing where
  title : String
  manufacturer : String
  currency : String
  price : ℚ
  deriving DecidableEq

/-- A catalog product (the `Product` namedtuple of the source). -/
structure Product where
  product_name : String
  manufacturer : String
  model : String
  family : String
  announced_date : String
  deriving DecidableEq

/-- A raw catalog record as read from the products file: `family` may be
absent (`'family' in p`). -/
structure RawProduct where
  product_name : String
  manufacturer : String
  model : String
  family : Option String
  announced_date : String
  deriving DecidableEq

/-- `getCost(listing)`: price normalised to USD through the currency-ratio
table (the module-level `currencyRatios` loaded from `exchangerates.json`,
passed explicitly here).  A missing currency is a `KeyError`, i.e. `none`. -/
def getCost (ratios : List (String × ℚ)) (listing : Listing) : Option ℚ :=
  (List.lookup listing.currency ratios).map (fun r => listing.price * r)

/-- One whitespace-token of the canonical name is a prefix of one
whitespace-token of the listing name (`matches` in the source). -/
def manufacturerTokenHit (product_bit : String) (listing_bits : List String) : Bool :=
  listing_bits.any (fun listing_bit => charsStart product_bit.data listing_bit.data)

/-- `manufacturerNormalizer(listing_manufacturers, product_manufacturers)`:
maps (uppercased) listing manufacturer strings to the canonical product
manufacturer that claimed them, first match wins.  The source iterates two
Python sets; here both collections are deduplicated on entry and iterated in
list order, making the set-iteration order an explicit parameter. -/
def manufacturerNormalizer (listing_manufacturers product_manufacturers : List String) :
    List (String × String) :=
  let lms := (listing_manufacturers.map pyUpper).dedup
  ((product_manufacturers.dedup).foldl
    (fun acc product_manufacturer =>
      let u := pyUpper product_manufacturer
      let u := if u == "FUJIFILM" then "FUJI" else u
      let hit := fun lm => (pySplit u).any (fun bit => manufacturerTokenHit bit (pySplit lm))
      (acc.1 ++ (acc.2.filter hit).map (fun lm => (lm, product_manufacturer)),
       acc.2.filter (fun lm => !(hit lm))))
    ([], lms)).1

/-- `defaultdict(int)` increment used for the listing-token counts. -/
def incAt (k : String) : List (String × Nat) → List (String × Nat)
  | [] => [(k, 1)]
  | (k', c) :: rest => if k' == k then (k', c + 1) :: rest else (k', c) :: incAt k rest

/-- `defaultdict(list)` append used for the grouping tables. -/
def appendAt {β : Type} (k : String) (v : β) :
    List (String × List β) → List (String × List β)
  | [] => [(k, [v])]
  | (k', vs) :: rest =>
    if k' == k then (k', vs ++ [v]) :: rest else (k', vs) :: appendAt k v rest

/-- `defaultdict(float)` addition used for the per-product scores. -/
def addScore (p : Product) (x : ℚ) : List (Product × ℚ) → List (Product × ℚ)
  | [] => [(p, x)]
  | (q, s) :: rest => if q == p then (q, s + x) :: rest else (q, s) :: addScore p x rest

/-- The 1- and 2-gram stream of a listing title, in the order the source
iterates it (`for n in xrange(1,3)`). -/
def listingGrams (listing : Listing) : List String :=
  ngrams 1 (pySplit listing.title) ++ ngrams 2 (pySplit listing.title)

/-- The raw occurrence counts behind `buildListingFrequencies`:
`word_frequency[word] += 1` for every n-gram occurrence in every title. -/
def buildListingFrequencyCounts (listings : List Listing) : List (String × Nat) :=
  listings.foldl (fun m l => (listingGrams l).foldl (fun m' w => incAt w m') m) []

/-- `buildListingFrequencies`: weight each counted token by
`-log(count / num_listings)`; `mlog` stands for `math.log`. -/
def buildListingFrequencies (mlog : ℚ → ℚ) (listings : List Listing) :
    List (String × ℚ) :=
  (buildListingFrequencyCounts listings).map
    (fun e => (e.1, -(mlog ((e.2 : ℚ) / (listings.length : ℚ)))))

/-- The body of the `buildProductFrequencies` loop for one manufacturer's
product list: map each normalized family and model token to its owning
products (`word_map`), and weight each token by
`-log(owners / products_of_manufacturer)` (`mlog` stands for `math.log`). -/
def manufacturerEntry (mlog : ℚ → ℚ) (prods : List Product) :
    List (String × List Product) × List (String × ℚ) :=
  let word_map := prods.foldl
    (fun wm p => appendAt (normalize p.model) p (appendAt (normalize p.family) p wm)) []
  (word_map,
    word_map.map (fun w => (w.1, -(mlog ((w.2.length : ℚ) / (prods.length : ℚ))))))

/-- `buildProductFrequencies`: group products by manufacturer and build each
manufacturer's token table and weights. -/
def buildProductFrequencies (mlog : ℚ → ℚ) (products : List Product) :
    List (String × (List (String × List Product) × List (String × ℚ))) :=
  (products.foldl (fun m p => appendAt p.manufacturer p m) []).map
    (fun e => (e.1, manufacturerEntry mlog e.2))

/-- The `Reconciler` object state after `__init__`: the input collections and
the frozen lookup tables. -/
structure Reconciler where
  ratios : List (String × ℚ)
  listings : List Listing
  products : List Product
  manufacturer_map : List (String × String)
  list_word_score : List (String × ℚ)
  words_by_manufacturer : List (String × (List (String × List Product) × List (String × ℚ)))

/-- `Reconciler.__init__`: build products (defaulting a missing family to
`''`), the manufacturer map and both frequency tables. -/
def Reconciler.init (ratios : List (String × ℚ)) (mlog : ℚ → ℚ)
    (listings : List Listing) (raw_products : List RawProduct) : Reconciler :=
  let products := raw_products.map (fun p =>
    { product_name := p.product_name, manufacturer := p.manufacturer,
      model := p.model, family := p.family.getD "",
      announced_date := p.announced_date : Product })
  { ratios := ratios
    listings := listings
    products := products
    manufacturer_map := manufacturerNormalizer (listings.map (fun l => l.manufacturer))
      (raw_products.map (fun p => p.manufacturer))
    list_word_score := buildListingFrequencies mlog listings
    words_by_manufacturer := buildProductFrequencies mlog products }

/-- `isCamera(listing)`: the heuristic relevance classifier.  `none` when the
cost lookup raises. -/
def isCamera (ratios : List (String × ℚ)) (listing : Listing) : Option Bool :=
  (getCost ratios listing).map (fun cost =>
    let p : ℚ := 1
    let p := if cost < 30 then (1 : ℚ)/10
      else if cost < 50 then (3 : ℚ)/10
      else if cost < 100 then (1 : ℚ)/2
      else p
    let title := pyUpper listing.title
    let p := if pyContains title "MP" || pyContains title "MEGAPIXEL" then p + 1/2 else p
    let p := if pyContains title "OPTICAL ZOOM" then p + 3/10 else p
    let p := if pyContains title " FOR " then p - 1/5 else p
    let p := if pyContains title " WITH " then p + 1/5 else p
    decide (p ≥ 1/2))

/-- `findCandidateProducts(listing)`: score this manufacturer's products by
shared tokens.  `none` models an unhandled `KeyError` (unknown currency, or a
dictionary access that cannot fail for states built by `Reconciler.init`). -/
def findCandidateProducts (r : Reconciler) (listing : Listing) :
    Option (List (Product × ℚ)) :=
  match isCamera r.ratios listing with
  | none => none
  | some cam =>
    if cam = false then some [] else
    match List.lookup (pyUpper listing.manufacturer) r.manufacturer_map with
    | none => some []
    | some manufacturer =>
      match List.lookup manufacturer r.words_by_manufacturer with
      | none => none
      | some ws =>
        (listingGrams listing).foldlM
          (fun results word =>
            let dampener := (List.lookup word r.list_word_score).getD 1
            match List.lookup word ws.1 with
            | none => some results
            | some word_products =>
              match List.lookup word ws.2 with
              | none => none
              | some score_incr =>
                some (word_products.foldl
                  (fun res p =>
                    if p.manufacturer == manufacturer
                    then addScore p (score_incr * dampener) res
                    else res)
                  results))
          []

/-- `sorted(results.items(), key=lambda (_, s): s)`: stable ascending sort by
score.  Python's sort is stable and the output of a stable sort under a total
preorder is unique, so insertion sort is extensionally the same function. -/
def sortHits (results : List (Product × ℚ)) : List (Product × ℚ) :=
  List.insertionSort (fun a b => a.2 ≤ b.2) results

/-- The body of the `reconcile` loop for one listing: rank the candidates and
either accept the best one, record a miss, or (score above threshold but
ambiguous) drop the listing.  `acc` is `(match_results, misses)`. -/
def reconcileStep (r : Reconciler) (score_threshold : ℚ)
    (acc : List (String × List Listing) × List Listing) (listing : Listing) :
    Option (List (String × List Listing) × List Listing) :=
  match findCandidateProducts r listing with
  | none => none
  | some results =>
    let hits := sortHits results
    match hits.getLast? with
    | none => some (acc.1, acc.2 ++ [listing])
    | some (product, score) =>
      if score_threshold < score then
        match hits.dropLast.getLast? with
        | some other =>
          if score - other.2 < 2 then some acc
          else some (appendAt product.product_name listing acc.1, acc.2)
        | none => some (appendAt product.product_name listing acc.1, acc.2)
      else some (acc.1, acc.2 ++ [listing])

/-- `reconcile(score_threshold=35)`: fold the per-listing selector over the
listing collection, producing `(match_results, misses)`. -/
def reconcile (r : Reconciler) (score_threshold : ℚ) :
    Option (List (String × List Listing) × List Listing) :=
  r.listings.foldlM (reconcileStep r score_threshold) ([], [])

/-- Mean of a cost list (`sum(costs) / len(costs)`). -/
def sampleMean (costs : List ℚ) : ℚ := costs.sum / (costs.length : ℚ)

/-- Sample variance with the `n-1` denominator
(`sum((c - mean)**2) / (len(costs) - 1)`); the source takes `sqrt` of this. -/
def sampleVariance (costs : List ℚ) : ℚ :=
  (costs.map (fun c => (c - sampleMean costs)^2)).sum / ((costs.length : ℚ) - 1)

/-- Decides `Real.sqrt v < y` for `0 ≤ v` in rational arithmetic
(see `sqrtLt_iff`). -/
def sqrtLt (v y : ℚ) : Bool := decide (0 < y) && decide (v < y^2)

/-- Decides `x < Real.sqrt v * c` for `0 ≤ v` in rational arithmetic
(see `ltSqrtMul_iff`). -/
def ltSqrtMul (x v c : ℚ) : Bool :=
  if 0 ≤ c then decide (x < 0) || decide (x^2 < v * c^2)
  else decide (x < 0) && decide (v * c^2 < x^2)

/-- The per-product body of `pruneByCost`: skip small or low-spread cost
lists, otherwise keep exactly the listings with
`mean - cost < sd * sanity_factor` (`sd = √(sampleVariance)`, compared via
the square-free helpers).  `none` models the `KeyError` of an unknown
currency (only reachable once `len(listings) ≥ 3`, as in the source). -/
def pruneListings (ratios : List (String × ℚ)) (sanity_factor sd_threshold : ℚ)
    (listings : List Listing) : Option (List Listing) :=
  if listings.length < 3 then some listings else
  match listings.mapM (getCost ratios) with
  | none => none
  | some costs =>
    if sqrtLt (sampleVariance costs) (sampleMean costs * sd_threshold) then some listings
    else some
      (((listings.zip costs).filter
          (fun lc => ltSqrtMul (sampleMean costs - lc.2) (sampleVariance costs)
            sanity_factor)).map (fun lc => lc.1))

/-- `pruneByCost(match_results, sanity_factor=1.5, sd_threshold=0.1)`: prune
each matched product's listing list independently. -/
def pruneByCost (ratios : List (String × ℚ))
    (match_results : List (String × List Listing))
    (sanity_factor sd_threshold : ℚ) : Option (List (String × List Listing)) :=
  match_results.mapM
    (fun e => (pruneListings ratios sanity_factor sd_threshold e.2).map
      (fun ls => (e.1, ls)))

/-! ### Bridging lemmas: the square-comparison helpers decide the `Real.sqrt`
inequalities of the source. -/

theorem sqrtLt_iff (v y : ℚ) :
    sqrtLt v y = true ↔ Real.sqrt (v : ℝ) < (y : ℝ) := by
  simp only [sqrtLt, Bool.and_eq_true, decide_eq_true_eq]
  constructor
  · rintro ⟨hy, hlt⟩
    have hy' : (0:ℝ) < (y : ℝ) := by exact_mod_cast hy
    rw [Real.sqrt_lt' hy']
    exact_mod_cast hlt
  · intro h
    have hy' : (0:ℝ) < (y : ℝ) := lt_of_le_of_lt (Real.sqrt_nonneg _) h
    have hy : 0 < y := by exact_mod_cast hy'
    refine ⟨hy, ?_⟩
    have := (Real.sqrt_lt' hy').mp h
    exact_mod_cast this

theorem sqrt_mul_self_of_nonneg {v c : ℝ} (hv : 0 ≤ v) (hc : 0 ≤ c) :
    Real.sqrt v * c = Real.sqrt (v * c ^ 2) := by
  rw [Real.sqrt_mul hv, Real.sqrt_sq hc]

theorem ltSqrtMul_iff (x v c : ℚ) (hv : (0:ℝ) ≤ (v : ℝ)) :
    ltSqrtMul x v c = true ↔ (x : ℝ) < Real.sqrt (v : ℝ) * (c : ℝ) := by
  unfold ltSqrtMul
  by_cases hc : 0 ≤ c
  · have hc' : (0:ℝ) ≤ (c : ℝ) := by exact_mod_cast hc
    rw [if_pos hc]
    simp only [Bool.or_eq_true, decide_eq_true_eq]
    rw [sqrt_mul_self_of_nonneg hv hc']
    constructor
    · rintro (hneg | hsq)
      · exact lt_of_lt_of_le (by exact_mod_cast hneg) (Real.sqrt_nonneg _)
      · exact Real.lt_sqrt_of_sq_lt (by exact_mod_cast hsq)
    · intro h
      by_cases hx : x < 0
      · exact Or.inl hx
      · right
        have hx' : (0:ℝ) ≤ (x : ℝ) := by exact_mod_cast not_lt.mp hx
        have := (Real.lt_sqrt hx').mp h
        exact_mod_cast this
  · have hc2 : c < 0 := not_le.mp hc
    have hc' : (c : ℝ) < 0 := by exact_mod_cast hc2
    rw [if_neg hc]
    simp only [Bool.and_eq_true, decide_eq_true_eq]
    have hsc : Real.sqrt (v : ℝ) * (c : ℝ) ≤ 0 :=
      mul_nonpos_iff.mpr (Or.inl ⟨Real.sqrt_nonneg _, le_of_lt hc'⟩)
    have key : Real.sqrt (v : ℝ) * (-(c : ℝ)) = Real.sqrt ((v : ℝ) * (c : ℝ) ^ 2) := by
      rw [sqrt_mul_self_of_nonneg hv (by linarith)]
      ring_nf
    constructor
    · rintro ⟨hneg, hsq⟩
      have hx' : (x : ℝ) < 0 := by exact_mod_cast hneg
      have h1 : Real.sqrt ((v : ℝ) * (c : ℝ) ^ 2) < -(x : ℝ) := by
        rw [Real.sqrt_lt' (by linarith)]
        have : (v : ℝ) * (c : ℝ) ^ 2 < (x : ℝ) ^ 2 := by exact_mod_cast hsq
        calc (v : ℝ) * (c : ℝ) ^ 2 < (x : ℝ) ^ 2 := this
          _ = (-(x : ℝ)) ^ 2 := by ring
      rw [← key] at h1
      linarith
    · intro h
      have hx' : (x : ℝ) < 0 := lt_of_lt_of_le h hsc
      refine ⟨by exact_mod_cast hx', ?_⟩
      have h1 : Real.sqrt (v : ℝ) * (-(c : ℝ)) < -(x : ℝ) := by linarith
      have h2 : Real.sqrt ((v : ℝ) * (c : ℝ) ^ 2) < -(x : ℝ) := by rwa [key] at h1
      have h3 : (v : ℝ) * (c : ℝ) ^ 2 < (-(x : ℝ)) ^ 2 :=
        (Real.sqrt_lt' (by linarith)).mp h2
      have : (v : ℝ) * (c : ℝ) ^ 2 < (x : ℝ) ^ 2 := by nlinarith
      exact_mod_cast this

theorem sampleVariance_nonneg (cs : List ℚ) (h : 1 ≤ cs.length) :
    0 ≤ sampleVariance cs := by
  unfold sampleVariance
  apply div_nonneg
  · apply List.sum_nonneg
    intro x hx
    obtain ⟨c, _, rfl⟩ := List.mem_map.mp hx
    positivity
  · have : (1 : ℚ) ≤ (cs.length : ℚ) := by exact_mod_cast h
    linarith

/-- The removal condition of claim C4 as amended, written from its words: the
listing's USD cost is at least `sanity_factor` (here `f`) sample standard
deviations below the mean, where the standard deviation is `√v`.  For
`0 ≤ f` and `0 ≤ v` this decides `Real.sqrt v * f ≤ mean - c`
(see the iff inside `c4_cost_pruner`). -/
def specRemoves (mean v f c : ℚ) : Bool :=
  decide (0 ≤ mean - c) && decide (v * f ^ 2 ≤ (mean - c) ^ 2)

theorem specRemoves_iff (mean v f c : ℚ) (hv : (0:ℝ) ≤ (v : ℝ)) (hf : 0 ≤ f) :
    specRemoves mean v f c = true ↔
      Real.sqrt (v : ℝ) * (f : ℝ) ≤ (mean : ℝ) - (c : ℝ) := by
  have hf' : (0:ℝ) ≤ (f : ℝ) := by exact_mod_cast hf
  simp only [specRemoves, Bool.and_eq_true, decide_eq_true_eq]
  rw [sqrt_mul_self_of_nonneg hv hf']
  constructor
  · rintro ⟨hpos, hsq⟩
    have hpos' : (0:ℝ) ≤ (mean : ℝ) - (c : ℝ) := by exact_mod_cast hpos
    have hsq' : (v : ℝ) * (f : ℝ) ^ 2 ≤ ((mean : ℝ) - (c : ℝ)) ^ 2 := by exact_mod_cast hsq
    calc Real.sqrt ((v : ℝ) * (f : ℝ) ^ 2) ≤ Real.sqrt (((mean : ℝ) - (c : ℝ)) ^ 2) :=
          Real.sqrt_le_sqrt hsq'
      _ = (mean : ℝ) - (c : ℝ) := Real.sqrt_sq hpos'
  · intro h
    have hpos' : (0:ℝ) ≤ (mean : ℝ) - (c : ℝ) := le_trans (Real.sqrt_nonneg _) h
    refine ⟨by exact_mod_cast hpos', ?_⟩
    have h2 : Real.sqrt ((v : ℝ) * (f : ℝ) ^ 2) ^ 2 ≤ ((mean : ℝ) - (c : ℝ)) ^ 2 :=
      pow_le_pow_left₀ (Real.sqrt_nonneg _) h 2
    rw [Real.sq_sqrt (by positivity)] at h2
    exact_mod_cast h2

theorem ltSqrtMul_eq_not_specRemoves (mean v f c : ℚ) (hv : (0:ℝ) ≤ (v : ℝ)) (hf : 0 ≤ f) :
    ltSqrtMul (mean - c) v f = !(specRemoves mean v f c) := by
  by_cases h : Real.sqrt (v : ℝ) * (f : ℝ) ≤ (mean : ℝ) - (c : ℝ)
  · have h1 : specRemoves mean v f c = true := (specRemoves_iff mean v f c hv hf).mpr h
    have h2 : ltSqrtMul (mean - c) v f = false := by
      rw [← Bool.not_eq_true]
      intro hcontra
      have := (ltSqrtMul_iff (mean - c) v f hv).mp hcontra
      push_cast at this
      linarith
    rw [h1, h2, Bool.not_true]
  · have h1 : specRemoves mean v f c = false := by
      rw [← Bool.not_eq_true]
      intro hcontra
      exact h ((specRemoves_iff mean v f c hv hf).mp hcontra)
    have h2 : ltSqrtMul (mean - c) v f = true := by
      rw [ltSqrtMul_iff (mean - c) v f hv]
      push_cast
      linarith [not_le.mp h]
    rw [h1, h2, Bool.not_false]

/-! ### Infrastructure for the cost-pruner claims -/

theorem mapM_some_length {α β : Type} (g : α → Option β) :
    ∀ (l : List α) (l' : List β), l.mapM g = some l' → l'.length = l.length := by
  intro l
  induction l with
  | nil =>
    intro l' h
    simp only [List.mapM_nil, pure] at h
    cases h
    rfl
  | cons a as ih =>
    intro l' h
    rw [List.mapM_cons] at h
    cases hga : g a with
    | none => rw [hga] at h; cases h
    | some b =>
      rw [hga] at h
      cases hrest : as.mapM g with
      | none => rw [hrest] at h; cases h
      | some bs =>
        rw [hrest] at h
        simp only [Option.bind_eq_bind, Option.some_bind, pure] at h
        cases h
        simp [ih bs hrest]

theorem zip_filter_map_fst_sublist {α β : Type} (q : α × β → Bool) :
    ∀ (ls : List α) (cs : List β),
      ((((ls.zip cs).filter q).map (fun lc => lc.1)).Sublist ls) := by
  intro ls
  induction ls with
  | nil => intro cs; simp
  | cons a as ih =>
    intro cs
    cases cs with
    | nil => simp
    | cons c cs' =>
      simp only [List.zip_cons_cons, List.filter_cons]
      by_cases h : q (a, c)
      · simp only [h, List.map_cons]
        exact List.Sublist.cons₂ a (ih cs')
      · simp only [h, Bool.false_eq_true, if_false]
        exact List.Sublist.cons a (ih cs')

theorem pruneListings_sublist (ratios : List (String × ℚ)) (f t : ℚ)
    (ls ls' : List Listing) (h : pruneListings ratios f t ls = some ls') :
    ls'.Sublist ls := by
  unfold pruneListings at h
  by_cases h3 : ls.length < 3
  · rw [if_pos h3] at h
    cases h
    exact List.Sublist.refl _
  · rw [if_neg h3] at h
    cases hm : ls.mapM (getCost ratios) with
    | none => rw [hm] at h; cases h
    | some cs =>
      rw [hm] at h
      dsimp only at h
      by_cases hskip : sqrtLt (sampleVariance cs) (sampleMean cs * t) = true
      · rw [if_pos hskip] at h
        cases h
        exact List.Sublist.refl _
      · rw [if_neg hskip] at h
        cases h
        exact zip_filter_map_fst_sublist _ ls cs

/-- C4 (amended): the cost pruner leaves intact a product with fewer than 3
listings or with `sd < mean·sd_threshold`; otherwise it removes exactly the
listings whose cost is **at least** `sanity_factor` sample standard
deviations below the mean (the boundary case is removed too, which is where
the original claim's "strictly more than" fails), and in particular it never
removes a listing whose cost is above the mean. -/
theorem c4_cost_pruner (ratios : List (String × ℚ)) (f t : ℚ) (ls : List Listing) :
    (ls.length < 3 → pruneListings ratios f t ls = some ls)
  ∧ ∀ cs, ls.mapM (getCost ratios) = some cs → 3 ≤ ls.length → 0 ≤ f →
      ((Real.sqrt (sampleVariance cs : ℝ) < (sampleMean cs : ℝ) * (t : ℝ) →
        pruneListings ratios f t ls = some ls)
    ∧ (¬ (Real.sqrt (sampleVariance cs : ℝ) < (sampleMean cs : ℝ) * (t : ℝ)) →
        (pruneListings ratios f t ls =
          some (((ls.zip cs).filter
            (fun lc => !(specRemoves (sampleMean cs) (sampleVariance cs) f lc.2))).map
              (fun lc => lc.1)))
      ∧ (∀ c : ℚ, specRemoves (sampleMean cs) (sampleVariance cs) f c = true ↔
          Real.sqrt (sampleVariance cs : ℝ) * (f : ℝ) ≤ (sampleMean cs : ℝ) - (c : ℝ))
      ∧ ∀ lc ∈ ls.zip cs, sampleMean cs < lc.2 →
          lc.1 ∈ ((ls.zip cs).filter
            (fun lc => !(specRemoves (sampleMean cs) (sampleVariance cs) f lc.2))).map
              (fun lc => lc.1))) := by
  constructor
  · intro h3
    unfold pruneListings
    rw [if_pos h3]
  · intro cs hmap hlen hf
    have hlcs : 1 ≤ cs.length := by
      rw [mapM_some_length _ _ _ hmap]; omega
    have hv : (0:ℝ) ≤ ((sampleVariance cs : ℚ) : ℝ) := by
      exact_mod_cast sampleVariance_nonneg cs hlcs
    constructor
    · intro hskip
      unfold pruneListings
      rw [if_neg (by omega), hmap]
      dsimp only
      rw [if_pos]
      rw [sqrtLt_iff]
      push_cast
      exact hskip
    · intro hns
      have hsl : sqrtLt (sampleVariance cs) (sampleMean cs * t) = false := by
        rw [← Bool.not_eq_true, sqrtLt_iff]
        push_cast
        exact hns
      refine ⟨?_, fun c => specRemoves_iff _ _ _ _ hv hf, ?_⟩
      · unfold pruneListings
        rw [if_neg (by omega), hmap]
        dsimp only
        rw [if_neg (by simp [hsl])]
        congr 1
        congr 1
        apply List.filter_congr
        intro lc _
        exact ltSqrtMul_eq_not_specRemoves (sampleMean cs) (sampleVariance cs) f lc.2 hv hf
      · intro lc hlc hgt
        apply List.mem_map_of_mem
        apply List.mem_filter.mpr
        refine ⟨hlc, ?_⟩
        have : specRemoves (sampleMean cs) (sampleVariance cs) f lc.2 = false := by
          unfold specRemoves
          rw [decide_eq_false (by linarith : ¬ (0 ≤ sampleMean cs - lc.2))]
          simp
        simp [this]

/-- A USD-priced listing used by the concrete instances below. -/
def mkUSD (p : ℚ) : Listing := ⟨"t", "m", "USD", p⟩

/-- A one-currency ratio table used by the concrete instances below. -/
def usdTable : List (String × ℚ) := [("USD", 1)]

theorem sqrt_four : Real.sqrt ((4:ℚ) : ℝ) = 2 := by
  rw [show (((4:ℚ)) : ℝ) = 2 ^ 2 by norm_num, Real.sqrt_sq (by norm_num)]

/-- C4 counterexample: on USD costs `[1, 5, 5, 5]` (mean 4, sample sd
exactly 2) the pruner removes the cost-1 listing even though that cost is
*not* strictly more than `1.5` standard deviations below the mean
(`4 - 1 = 3 = 2 · 1.5` exactly), refuting the claim's "strictly more
than". -/
theorem c4_cost_pruner_counterexample :
    pruneListings usdTable (3/2) (1/10) [mkUSD 1, mkUSD 5, mkUSD 5, mkUSD 5] =
      some [mkUSD 5, mkUSD 5, mkUSD 5]
  ∧ sampleMean [1, 5, 5, 5] = 4 ∧ sampleVariance [1, 5, 5, 5] = 4
  ∧ ¬ (Real.sqrt ((4:ℚ) : ℝ) * ((3:ℚ)/2 : ℚ) < ((4:ℚ) : ℝ) - ((1:ℚ) : ℝ)) := by
  refine ⟨by with_unfolding_all decide, by with_unfolding_all decide,
    by with_unfolding_all decide, ?_⟩
  rw [sqrt_four]
  push_cast
  norm_num

/-- Witness for `c4_cost_pruner`, at the `[1, 5, 5, 5]` cost list with the
default parameters. -/
theorem c4_cost_pruner_witness :
    (0:ℚ) ≤ 3/2
  ∧ [mkUSD 1, mkUSD 5, mkUSD 5, mkUSD 5].mapM (getCost usdTable) = some [1, 5, 5, 5]
  ∧ 3 ≤ [mkUSD 1, mkUSD 5, mkUSD 5, mkUSD 5].length
  ∧ ¬ (Real.sqrt (sampleVariance [1, 5, 5, 5] : ℝ) <
        (sampleMean [1, 5, 5, 5] : ℝ) * (((1:ℚ)/10 : ℚ) : ℝ))
  ∧ pruneListings usdTable (3/2) (1/10) [mkUSD 1, mkUSD 5, mkUSD 5, mkUSD 5] =
      some ((([mkUSD 1, mkUSD 5, mkUSD 5, mkUSD 5].zip [1, 5, 5, 5]).filter
        (fun lc => !(specRemoves (sampleMean [1, 5, 5, 5]) (sampleVariance [1, 5, 5, 5])
          (3/2) lc.2))).map (fun lc => lc.1)) := by
  have hvar : sampleVariance ([1, 5, 5, 5] : List ℚ) = 4 := by with_unfolding_all decide
  have hmean : sampleMean ([1, 5, 5, 5] : List ℚ) = 4 := by with_unfolding_all decide
  have hns : ¬ (Real.sqrt (sampleVariance [1, 5, 5, 5] : ℝ) <
      (sampleMean [1, 5, 5, 5] : ℝ) * (((1:ℚ)/10 : ℚ) : ℝ)) := by
    rw [hvar, hmean, sqrt_four]
    push_cast
    norm_num
  refine ⟨by norm_num, by with_unfolding_all decide, by decide, hns, ?_⟩
  exact (((c4_cost_pruner usdTable (3/2) (1/10)
    [mkUSD 1, mkUSD 5, mkUSD 5, mkUSD 5]).2 [1, 5, 5, 5]
    (by with_unfolding_all decide) (by decide) (by norm_num)).2 hns).1

/-- C7 (amended): the cost pruner only ever removes listings — a successful
run maps every product entry to an entry with the same product key whose
listing list is a sublist of the original — but it is *not* idempotent (see
the counterexample): a second run can remove further listings because the
survivors' mean and standard deviation change. -/
theorem c7_prune_shrinks (ratios : List (String × ℚ)) (f t : ℚ) :
    ∀ (mr mr' : List (String × List Listing)),
      pruneByCost ratios mr f t = some mr' →
      List.Forall₂ (fun e e' : String × List Listing =>
        e'.1 = e.1 ∧ e'.2.Sublist e.2) mr mr' := by
  intro mr
  induction mr with
  | nil =>
    intro mr' h
    unfold pruneByCost at h
    simp only [List.mapM_nil, pure] at h
    cases h
    exact List.Forall₂.nil
  | cons e es ih =>
    intro mr' h
    unfold pruneByCost at h
    rw [List.mapM_cons] at h
    cases hp : pruneListings ratios f t e.2 with
    | none => rw [hp] at h; cases h
    | some ls1 =>
      rw [hp] at h
      cases hr : es.mapM
          (fun e => (pruneListings ratios f t e.2).map (fun ls => (e.1, ls))) with
      | none => rw [hr] at h; simp at h
      | some rest =>
        rw [hr] at h
        simp only [Option.map_some', Option.bind_eq_bind, Option.some_bind, pure,
          Option.some.injEq] at h
        cases h
        refine List.Forall₂.cons ⟨rfl, pruneListings_sublist _ _ _ _ _ hp⟩ ?_
        exact ih rest (by unfold pruneByCost; exact hr)

/-- C7 counterexample: with default parameters on USD costs
`[1, 50, 100, 100, 100]` the first pruner run removes the cost-1 listing,
and re-running the pruner on that output removes the cost-50 listing as
well — the second run is not a no-op. -/
theorem c7_prune_counterexample :
    pruneByCost usdTable
        [("P", [mkUSD 1, mkUSD 50, mkUSD 100, mkUSD 100, mkUSD 100])] (3/2) (1/10) =
      some [("P", [mkUSD 50, mkUSD 100, mkUSD 100, mkUSD 100])]
  ∧ pruneByCost usdTable
        [("P", [mkUSD 50, mkUSD 100, mkUSD 100, mkUSD 100])] (3/2) (1/10) =
      some [("P", [mkUSD 100, mkUSD 100, mkUSD 100])]
  ∧ [("P", [mkUSD 50, mkUSD 100, mkUSD 100, mkUSD 100])] ≠
      [("P", [mkUSD 100, mkUSD 100, mkUSD 100])] := by
  refine ⟨?_, ?_, ?_⟩ <;> with_unfolding_all decide

/-- Witness for `c7_prune_shrinks` at a concrete pruner run. -/
theorem c7_prune_shrinks_witness :
    List.Forall₂ (fun e e' : String × List Listing => e'.1 = e.1 ∧ e'.2.Sublist e.2)
      [("P", [mkUSD 1, mkUSD 50, mkUSD 100, mkUSD 100, mkUSD 100])]
      [("P", [mkUSD 50, mkUSD 100, mkUSD 100, mkUSD 100])] :=
  c7_prune_shrinks usdTable (3/2) (1/10)
    [("P", [mkUSD 1, mkUSD 50, mkUSD 100, mkUSD 100, mkUSD 100])]
    [("P", [mkUSD 50, mkUSD 100, mkUSD 100, mkUSD 100])]
    (by with_unfolding_all decide)

/-! ### The relevance classifier (claim C5) -/

/-- The classifier score as claim C5 words it: start at 1, apply exactly one
price bracket, then add the four independent title adjustments. -/
def specScore (cost : ℚ) (title : String) : ℚ :=
  (if cost < 30 then (1:ℚ)/10
    else if cost < 50 then (3:ℚ)/10
    else if cost < 100 then (1:ℚ)/2
    else 1)
  + (if pyContains (pyUpper title) "MP" || pyContains (pyUpper title) "MEGAPIXEL"
      then (1:ℚ)/2 else 0)
  + (if pyContains (pyUpper title) "OPTICAL ZOOM" then (3:ℚ)/10 else 0)
  + (if pyContains (pyUpper title) " FOR " then -((1:ℚ)/5) else 0)
  + (if pyContains (pyUpper title) " WITH " then (1:ℚ)/5 else 0)

/-- C5: for every listing whose currency is known, the classifier decides
in-domain exactly when the claim's score — one mutually exclusive price
bracket on the USD cost plus the four independent title adjustments — is at
least 1/2. -/
theorem c5_classifier (ratios : List (String × ℚ)) (l : Listing) (cost : ℚ)
    (h : getCost ratios l = some cost) :
    isCamera ratios l = some (decide (specScore cost l.title ≥ 1/2)) := by
  unfold isCamera
  rw [h, Option.map_some', Option.some.injEq]
  unfold specScore
  dsimp only
  split_ifs <;> (rw [decide_eq_decide]; norm_num)

/-- Witness for `c5_classifier`: a $20 listing titled "X WITH MP" is scored
`1/10 + 1/2 + 1/5 = 4/5` and classified in-domain. -/
theorem c5_classifier_witness :
    getCost usdTable ⟨"X WITH MP", "m", "USD", 20⟩ = some 20
  ∧ isCamera usdTable ⟨"X WITH MP", "m", "USD", 20⟩ =
      some (decide (specScore 20 "X WITH MP" ≥ 1/2))
  ∧ isCamera usdTable ⟨"X WITH MP", "m", "USD", 20⟩ = some true := by
  refine ⟨by with_unfolding_all decide, ?_, by with_unfolding_all decide⟩
  exact c5_classifier usdTable ⟨"X WITH MP", "m", "USD", 20⟩ 20
    (by with_unfolding_all decide)

/-! ### The manufacturer resolver on the spec's own test vector (claim C2) -/

/-- C2: evaluating `manufacturerNormalizer` at the claim's input (canonical
`{"Canon","Nikon","Konica Minolta"}`, raw `{"Canon","Canon Canada","Nikon",
"Sony","Konica Minolta","Minolta"}`).  The matching itself behaves as
claimed ("Canon Canada" is claimed by "Canon", "Minolta" by
"Konica Minolta", "Sony" by nobody), but every key of the returned map is
the **uppercased** listing string: there is no key `"Canon Canada"` or
`"Minolta"`, contradicting the claim (and the repository's own unit test
`test_manufacturerNormalizer`, which looks up the original-cased keys). -/
theorem c2_manufacturer_map_eval :
    List.lookup "CANON CANADA"
      (manufacturerNormalizer
        ["Canon", "Canon Canada", "Nikon", "Sony", "Konica Minolta", "Minolta"]
        ["Canon", "Nikon", "Konica Minolta"]) = some "Canon"
  ∧ List.lookup "Canon Canada"
      (manufacturerNormalizer
        ["Canon", "Canon Canada", "Nikon", "Sony", "Konica Minolta", "Minolta"]
        ["Canon", "Nikon", "Konica Minolta"]) = none
  ∧ List.lookup "MINOLTA"
      (manufacturerNormalizer
        ["Canon", "Canon Canada", "Nikon", "Sony", "Konica Minolta", "Minolta"]
        ["Canon", "Nikon", "Konica Minolta"]) = some "Konica Minolta"
  ∧ List.lookup "Minolta"
      (manufacturerNormalizer
        ["Canon", "Canon Canada", "Nikon", "Sony", "Konica Minolta", "Minolta"]
        ["Canon", "Nikon", "Konica Minolta"]) = none
  ∧ List.lookup "SONY"
      (manufacturerNormalizer
        ["Canon", "Canon Canada", "Nikon", "Sony", "Konica Minolta", "Minolta"]
        ["Canon", "Nikon", "Konica Minolta"]) = none
  ∧ List.lookup "Sony"
      (manufacturerNormalizer
        ["Canon", "Canon Canada", "Nikon", "Sony", "Konica Minolta", "Minolta"]
        ["Canon", "Nikon", "Konica Minolta"]) = none := by
  refine ⟨?_, ?_, ?_, ?_, ?_, ?_⟩ <;> decide

/-! ### The listing-token frequency model (claim C3) -/

/-- Document frequency as claim C3 words it (spec-side definition): the
number of listings whose gram title stream (1- and 2-grams) contains the token. -/
def docFreq (listings : List Listing) (w : String) : Nat :=
  listings.countP (fun l => (listingGrams l).contains w)

theorem lookup_incAt (w k : String) :
    ∀ m : List (String × Nat), List.lookup w (incAt k m) =
      if w = k then some ((List.lookup w m).getD 0 + 1) else List.lookup w m := by
  intro m
  induction m with
  | nil =>
    simp only [incAt, List.lookup]
    by_cases h : w = k
    · subst h; simp
    · simp [h, beq_false_of_ne h]
  | cons e rest ih =>
    obtain ⟨k', c⟩ := e
    simp only [incAt]
    by_cases hk : k' = k
    · subst hk
      simp only [beq_self_eq_true, if_true, List.lookup]
      by_cases hw : w = k'
      · subst hw; simp
      · simp [beq_false_of_ne hw, hw]
    · rw [if_neg (by simpa using hk)]
      by_cases hw : w = k'
      · subst hw
        simp only [List.lookup, beq_self_eq_true]
        rw [if_neg hk]
      · simp only [List.lookup, beq_false_of_ne hw]
        exact ih

theorem lookup_foldl_incAt (w : String) :
    ∀ (ws : List String) (m : List (String × Nat)),
      (List.lookup w (ws.foldl (fun m' k => incAt k m') m)).getD 0 =
        (List.lookup w m).getD 0 + ws.count w := by
  intro ws
  induction ws with
  | nil => intro m; simp
  | cons k rest ih =>
    intro m
    simp only [List.foldl_cons, List.count_cons]
    rw [ih (incAt k m), lookup_incAt]
    by_cases h : w = k
    · subst h; simp; omega
    · rw [if_neg h, if_neg (by simpa using fun hh => h hh.symm)]
      omega

theorem lookup_buildListingFrequencyCounts (w : String) (listings : List Listing) :
    (List.lookup w (buildListingFrequencyCounts listings)).getD 0 =
      (listings.map (fun l => (listingGrams l).count w)).sum := by
  unfold buildListingFrequencyCounts
  suffices hgen : ∀ m, (List.lookup w (listings.foldl
      (fun m l => (listingGrams l).foldl (fun m' w' => incAt w' m') m) m)).getD 0 =
      (List.lookup w m).getD 0 + (listings.map (fun l => (listingGrams l).count w)).sum by
    simpa using hgen []
  induction listings with
  | nil => intro m; simp
  | cons l rest ih =>
    intro m
    simp only [List.foldl_cons, List.map_cons, List.sum_cons]
    rw [ih, lookup_foldl_incAt]
    omega

theorem lookup_mem_values {β : Type} (w : String) :
    ∀ (m : List (String × β)) (c : β), List.lookup w m = some c → ∃ k, (k, c) ∈ m := by
  intro m
  induction m with
  | nil => intro c h; cases h
  | cons e rest ih =>
    intro c h
    obtain ⟨k', v⟩ := e
    by_cases hw : w = k'
    · subst hw
      simp only [List.lookup, beq_self_eq_true] at h
      cases h
      exact ⟨w, List.mem_cons_self _ _⟩
    · simp only [List.lookup, beq_false_of_ne hw] at h
      obtain ⟨k, hk⟩ := ih c h
      exact ⟨k, List.mem_cons_of_mem _ hk⟩

theorem incAt_values_pos (k : String) :
    ∀ m : List (String × Nat), (∀ e ∈ m, 1 ≤ e.2) → ∀ e ∈ incAt k m, 1 ≤ e.2 := by
  intro m
  induction m with
  | nil =>
    intro _ e he
    simp only [incAt] at he
    rcases List.mem_singleton.mp he with rfl
    exact le_refl 1
  | cons hd rest ih =>
    intro hm e he
    obtain ⟨k', c⟩ := hd
    simp only [incAt] at he
    by_cases hk : (k' == k) = true
    · rw [if_pos hk] at he
      rcases List.mem_cons.mp he with rfl | htail
      · omega
      · exact hm _ (List.mem_cons_of_mem _ htail)
    · rw [if_neg hk] at he
      rcases List.mem_cons.mp he with rfl | htail
      · exact hm _ (List.mem_cons_self _ _)
      · exact ih (fun e' he' => hm _ (List.mem_cons_of_mem _ he')) _ htail

theorem foldl_incAt_values_pos (ws : List String) :
    ∀ m : List (String × Nat), (∀ e ∈ m, 1 ≤ e.2) →
      ∀ e ∈ ws.foldl (fun m' k => incAt k m') m, 1 ≤ e.2 := by
  induction ws with
  | nil => intro m hm; simpa using hm
  | cons k rest ih =>
    intro m hm
    simp only [List.foldl_cons]
    exact ih (incAt k m) (incAt_values_pos k m hm)

theorem buildListingFrequencyCounts_values_pos (listings : List Listing) :
    ∀ e ∈ buildListingFrequencyCounts listings, 1 ≤ e.2 := by
  unfold buildListingFrequencyCounts
  suffices hgen : ∀ m, (∀ e ∈ m, 1 ≤ e.2) → ∀ e ∈ listings.foldl
      (fun m l => (listingGrams l).foldl (fun m' w' => incAt w' m') m) m, 1 ≤ e.2 by
    exact hgen [] (by simp)
  induction listings with
  | nil => intro m hm; simpa using hm
  | cons l rest ih =>
    intro m hm
    simp only [List.foldl_cons]
    exact ih _ (foldl_incAt_values_pos _ m hm)

theorem countP_le_sum_of_pos {α : Type} (p : α → Bool) (g : α → Nat)
    (hpg : ∀ a, p a = true → 1 ≤ g a) :
    ∀ l : List α, l.countP p ≤ (l.map g).sum := by
  intro l
  induction l with
  | nil => simp
  | cons a rest ih =>
    simp only [List.countP_cons, List.map_cons, List.sum_cons]
    by_cases h : p a = true
    · have := hpg a h
      rw [if_pos h]
      omega
    · rw [if_neg h]
      omega

/-- C3 (amended): each stored count is the number of *occurrences* of the
token across every listing title's 1- and 2-gram stream — at least the document
frequency the claim describes, but possibly larger, so a count can exceed
the number of listings; the rarity weight `-log(count / total)` is
non-negative exactly when the count is at most the number of listings (the
counterexample shows a negative weight). -/
theorem c3_frequency_counts (listings : List Listing) (w : String) (c : Nat)
    (h : List.lookup w (buildListingFrequencyCounts listings) = some c) :
    c = (listings.map (fun l => (listingGrams l).count w)).sum
  ∧ docFreq listings w ≤ c
  ∧ 1 ≤ c
  ∧ (0 < listings.length →
      (0 ≤ -Real.log ((c : ℝ) / (listings.length : ℝ)) ↔ c ≤ listings.length)) := by
  have hc : c = (listings.map (fun l => (listingGrams l).count w)).sum := by
    have := lookup_buildListingFrequencyCounts w listings
    rw [h] at this
    simpa using this
  have hpos : 1 ≤ c := by
    obtain ⟨k, hk⟩ := lookup_mem_values w _ c h
    exact buildListingFrequencyCounts_values_pos listings _ hk
  refine ⟨hc, ?_, hpos, ?_⟩
  · rw [hc]
    apply countP_le_sum_of_pos
    intro l hl
    have hmem : w ∈ listingGrams l := by
      simpa [List.contains_iff_exists_mem_beq, beq_iff_eq] using hl
    exact List.count_pos_iff.mpr hmem
  · intro hlen
    have hN : (0:ℝ) < (listings.length : ℝ) := by exact_mod_cast hlen
    have hcR : (0:ℝ) < (c : ℝ) := by exact_mod_cast hpos
    have hx : (0:ℝ) < (c : ℝ) / (listings.length : ℝ) := div_pos hcR hN
    rw [neg_nonneg, Real.log_nonpos_iff hx, div_le_one hN]
    exact_mod_cast Iff.rfl

/-- C3 counterexample: on the single listing titled `"A A"` the token `"A"`
is counted twice — more than the one listing that contains it, so the count
is occurrence frequency, not document frequency, and its rarity weight
`-log(2/1)` is negative. -/
theorem c3_frequency_counts_counterexample :
    List.lookup "A" (buildListingFrequencyCounts [⟨"A A", "m", "USD", 1⟩]) = some 2
  ∧ ([(⟨"A A", "m", "USD", 1⟩ : Listing)]).length = 1
  ∧ docFreq [⟨"A A", "m", "USD", 1⟩] "A" = 1
  ∧ -Real.log ((2 : ℝ) / 1) < 0 := by
  refine ⟨by decide, by decide, by decide, ?_⟩
  have h2 : ((2:ℝ)/1) = 2 := by norm_num
  rw [h2]
  exact neg_lt_zero.mpr (Real.log_pos (by norm_num))

/-- Witness for `c3_frequency_counts` at the `"A A"` listing. -/
theorem c3_frequency_counts_witness :
    List.lookup "A" (buildListingFrequencyCounts [⟨"A A", "m", "USD", 1⟩]) = some 2
  ∧ docFreq [⟨"A A", "m", "USD", 1⟩] "A" ≤ 2
  ∧ 1 ≤ 2
  ∧ (0 < ([(⟨"A A", "m", "USD", 1⟩ : Listing)]).length →
      (0 ≤ -Real.log ((2 : ℝ) / (([(⟨"A A", "m", "USD", 1⟩ : Listing)]).length : ℝ)) ↔
        2 ≤ ([(⟨"A A", "m", "USD", 1⟩ : Listing)]).length)) := by
  have h := c3_frequency_counts [⟨"A A", "m", "USD", 1⟩] "A" 2 (by decide)
  exact ⟨by decide, h.2.1, h.2.2.1, h.2.2.2⟩

/-! ### Error propagation and empty inputs (claims C9 and C8) -/

theorem foldlM_reconcileStep_none (r : Reconciler) (t : ℚ) (l : Listing)
    (hf : findCandidateProducts r l = none) :
    ∀ (ls : List Listing) (acc : List (String × List Listing) × List Listing),
      l ∈ ls → ls.foldlM (reconcileStep r t) acc = none := by
  intro ls
  induction ls with
  | nil => intro acc h; cases h
  | cons a as ih =>
    intro acc hmem
    rw [List.foldlM_cons]
    rcases List.mem_cons.mp hmem with rfl | htail
    · have hstep : reconcileStep r t acc l = none := by
        unfold reconcileStep; rw [hf]
      rw [hstep]
      rfl
    · cases hstep : reconcileStep r t acc a with
      | none => rfl
      | some acc' => simpa using ih acc' htail

/-- C9: a listing whose currency code is absent from the ratio table makes
the cost computation fail, hence the classifier and the candidate search
fail, and the whole reconciliation run aborts (`none`) — the listing is not
turned into a miss. -/
theorem c9_unknown_currency (r : Reconciler) (t : ℚ) (l : Listing)
    (hmem : l ∈ r.listings) (hcur : List.lookup l.currency r.ratios = none) :
    getCost r.ratios l = none
  ∧ isCamera r.ratios l = none
  ∧ findCandidateProducts r l = none
  ∧ reconcile r t = none := by
  have hg : getCost r.ratios l = none := by
    unfold getCost; rw [hcur]; rfl
  have hic : isCamera r.ratios l = none := by
    unfold isCamera; rw [hg]; rfl
  have hf : findCandidateProducts r l = none := by
    unfold findCandidateProducts; rw [hic]
  exact ⟨hg, hic, hf, foldlM_reconcileStep_none r t l hf r.listings ([], []) hmem⟩

/-- Witness for `c9_unknown_currency`: a listing priced in the unknown
currency `"XYZ"` aborts the run. -/
theorem c9_unknown_currency_witness :
    (⟨"T", "M", "XYZ", 5⟩ : Listing) ∈
      (Reconciler.mk usdTable [⟨"T", "M", "XYZ", 5⟩] [] [] [] []).listings
  ∧ List.lookup (Listing.currency ⟨"T", "M", "XYZ", 5⟩)
      (Reconciler.mk usdTable [⟨"T", "M", "XYZ", 5⟩] [] [] [] []).ratios = none
  ∧ reconcile (Reconciler.mk usdTable [⟨"T", "M", "XYZ", 5⟩] [] [] [] []) 35 = none := by
  refine ⟨by decide, by decide, ?_⟩
  exact (c9_unknown_currency (Reconciler.mk usdTable [⟨"T", "M", "XYZ", 5⟩] [] [] [] [])
    35 ⟨"T", "M", "XYZ", 5⟩ (by decide) (by decide)).2.2.2

theorem findCandidateProducts_empty_map (r : Reconciler)
    (hmm : r.manufacturer_map = []) (l : Listing)
    (hcur : (List.lookup l.currency r.ratios).isSome) :
    findCandidateProducts r l = some [] := by
  obtain ⟨rc, hrc⟩ := Option.isSome_iff_exists.mp hcur
  have hs : (isCamera r.ratios l).isSome = true := by
    unfold isCamera getCost
    rw [hrc]
    simp
  cases hic : isCamera r.ratios l with
  | none => rw [hic] at hs; simp at hs
  | some cam =>
    unfold findCandidateProducts
    rw [hic]
    dsimp only
    cases cam with
    | false => rfl
    | true =>
      rw [if_neg (by simp), hmm]
      rfl

theorem reconcileStep_no_hits (r : Reconciler) (t : ℚ)
    (acc : List (String × List Listing) × List Listing) (l : Listing)
    (hf : findCandidateProducts r l = some []) :
    reconcileStep r t acc l = some (acc.1, acc.2 ++ [l]) := by
  unfold reconcileStep
  rw [hf]
  rfl

theorem foldlM_all_miss (r : Reconciler) (t : ℚ) (hmm : r.manufacturer_map = []) :
    ∀ (ls : List Listing) (acc : List (String × List Listing) × List Listing),
      (∀ l ∈ ls, (List.lookup l.currency r.ratios).isSome) →
      ls.foldlM (reconcileStep r t) acc = some (acc.1, acc.2 ++ ls) := by
  intro ls
  induction ls with
  | nil => intro acc _; simp
  | cons a as ih =>
    intro acc hcur
    rw [List.foldlM_cons,
      reconcileStep_no_hits r t acc a
        (findCandidateProducts_empty_map r hmm a (hcur a (List.mem_cons_self _ _)))]
    have := ih (acc.1, acc.2 ++ [a]) (fun l hl => hcur l (List.mem_cons_of_mem _ hl))
    simpa using this

/-- C8: with an empty listing collection reconciliation returns the empty
match result and the empty miss list (for any product collection); with an
empty product collection and listings whose currencies are all known, it
returns the empty match result and reports every listing as a miss.
Construction of the `Reconciler` state itself is total in the embedding. -/
theorem c8_empty_inputs (ratios : List (String × ℚ)) (mlog : ℚ → ℚ) (t : ℚ) :
    (∀ raw_products, reconcile (Reconciler.init ratios mlog [] raw_products) t =
      some ([], []))
  ∧ ∀ listings : List Listing,
      (∀ l ∈ listings, (List.lookup l.currency ratios).isSome) →
      reconcile (Reconciler.init ratios mlog listings []) t = some ([], listings) := by
  constructor
  · intro raw_products
    rfl
  · intro listings hcur
    have hmm : (Reconciler.init ratios mlog listings []).manufacturer_map = [] := rfl
    have := foldlM_all_miss (Reconciler.init ratios mlog listings []) t hmm listings
      ([], []) hcur
    unfold reconcile
    simpa using this

/-- Witness for `c8_empty_inputs`: both empty collections, and a one-listing
collection with an empty catalog. -/
theorem c8_empty_inputs_witness :
    reconcile (Reconciler.init usdTable (fun q => q) [] []) 35 = some ([], [])
  ∧ (∀ l ∈ [mkUSD 5], (List.lookup l.currency usdTable).isSome)
  ∧ reconcile (Reconciler.init usdTable (fun q => q) [mkUSD 5] []) 35 =
      some ([], [mkUSD 5]) := by
  refine ⟨(c8_empty_inputs usdTable (fun q => q) 35).1 [], by decide, ?_⟩
  exact (c8_empty_inputs usdTable (fun q => q) 35).2 [mkUSD 5] (by decide)

/-! ### The match selector (claim C1) -/

instance : IsTotal (Product × ℚ) (fun a b : Product × ℚ => a.2 ≤ b.2) :=
  ⟨fun a b => le_total a.2 b.2⟩

instance : IsTrans (Product × ℚ) (fun a b : Product × ℚ => a.2 ≤ b.2) :=
  ⟨fun _ _ _ h1 h2 => le_trans h1 h2⟩

theorem sortHits_sorted (results : List (Product × ℚ)) :
    List.Sorted (fun a b : Product × ℚ => a.2 ≤ b.2) (sortHits results) :=
  List.sorted_insertionSort _ results

theorem sortHits_perm (results : List (Product × ℚ)) :
    (sortHits results).Perm results :=
  List.perm_insertionSort _ results

theorem sorted_getLast?_ge {l : List (Product × ℚ)}
    (hs : List.Sorted (fun a b : Product × ℚ => a.2 ≤ b.2) l)
    {m : Product × ℚ} (hm : l.getLast? = some m) :
    ∀ x ∈ l, x.2 ≤ m.2 := by
  obtain ⟨ys, rfl⟩ := List.getLast?_eq_some_iff.mp hm
  intro x hx
  rcases List.mem_append.mp hx with hys | hlast
  · exact (List.pairwise_append.mp hs).2.2 x hys m (List.mem_singleton_self m)
  · rw [List.mem_singleton.mp hlast]

/-- C1 (amended): for a listing whose candidate search succeeds, the
selector behaves as follows.  No candidates: the listing is a miss.  Top
score (the maximum of all candidate scores) not exceeding the threshold: a
miss.  Top score above the threshold with no second-ranked candidate, or
with a gap of at least the ambiguity margin 2: the listing is appended to
the top candidate's match list.  Top score above the threshold but gap
below 2: the accumulator is returned unchanged — the listing is silently
dropped and is neither matched nor reported as a miss (this last case is
what the original claim got wrong). -/
theorem c1_selector (r : Reconciler) (t : ℚ)
    (acc : List (String × List Listing) × List Listing) (l : Listing)
    (results : List (Product × ℚ))
    (hfind : findCandidateProducts r l = some results) :
    (results = [] → reconcileStep r t acc l = some (acc.1, acc.2 ++ [l]))
  ∧ ∀ p s, (sortHits results).getLast? = some (p, s) →
      ((∀ x ∈ results, x.2 ≤ s)
      ∧ (s ≤ t → reconcileStep r t acc l = some (acc.1, acc.2 ++ [l]))
      ∧ (t < s → (sortHits results).dropLast.getLast? = none →
          reconcileStep r t acc l = some (appendAt p.product_name l acc.1, acc.2))
      ∧ (t < s → ∀ q s2, (sortHits results).dropLast.getLast? = some (q, s2) →
          ((2 ≤ s - s2 → reconcileStep r t acc l =
              some (appendAt p.product_name l acc.1, acc.2))
          ∧ (s - s2 < 2 → reconcileStep r t acc l = some acc)))) := by
  constructor
  · intro hnil
    subst hnil
    unfold reconcileStep
    rw [hfind]
    rfl
  · intro p s hlast
    refine ⟨?_, ?_, ?_, ?_⟩
    · intro x hx
      exact sorted_getLast?_ge (sortHits_sorted results) hlast x
        ((sortHits_perm results).mem_iff.mpr hx)
    · intro hle
      unfold reconcileStep
      rw [hfind]
      dsimp only
      rw [hlast]
      dsimp only
      rw [if_neg (not_lt.mpr hle)]
    · intro hgt hsec
      unfold reconcileStep
      rw [hfind]
      dsimp only
      rw [hlast]
      dsimp only
      rw [if_pos hgt, hsec]
    · intro hgt q s2 hsec
      constructor
      · intro hgap
        unfold reconcileStep
        rw [hfind]
        dsimp only
        rw [hlast]
        dsimp only
        rw [if_pos hgt, hsec]
        dsimp only
        rw [if_neg (not_lt.mpr hgap)]
      · intro hgap
        unfold reconcileStep
        rw [hfind]
        dsimp only
        rw [hlast]
        dsimp only
        rw [if_pos hgt, hsec]
        dsimp only
        rw [if_pos hgap]

/-- A reconciler state in which the single listing scores two products of
the same manufacturer equally (both 40, above the default threshold 35). -/
def ambReconciler : Reconciler :=
  { ratios := [("USD", 1)]
    listings := [⟨"T", "M", "USD", 200⟩]
    products := [⟨"P1", "C", "M1", "F1", "D"⟩, ⟨"P2", "C", "M2", "F2", "D"⟩]
    manufacturer_map := [("M", "C")]
    list_word_score := []
    words_by_manufacturer :=
      [("C", ([("T", [⟨"P1", "C", "M1", "F1", "D"⟩, ⟨"P2", "C", "M2", "F2", "D"⟩])],
        [("T", 40)]))] }

/-- C1 counterexample: in `ambReconciler` the only listing scores 40 for two
candidates (above the threshold 35, gap 0 < 2), so the ambiguity guard
rejects it — and the run returns an empty match result *and* an empty miss
list: the listing ends up in neither, refuting the claim's partition. -/
theorem c1_selector_counterexample :
    ambReconciler.listings = [⟨"T", "M", "USD", 200⟩]
  ∧ findCandidateProducts ambReconciler ⟨"T", "M", "USD", 200⟩ =
      some [(⟨"P1", "C", "M1", "F1", "D"⟩, 40), (⟨"P2", "C", "M2", "F2", "D"⟩, 40)]
  ∧ reconcile ambReconciler 35 = some ([], []) := by
  refine ⟨rfl, ?_, ?_⟩ <;> with_unfolding_all decide

/-- The `ambReconciler` state with only one product owning the scored token,
so the selector accepts it. -/
def oneReconciler : Reconciler :=
  { ambReconciler with
    words_by_manufacturer :=
      [("C", ([("T", [⟨"P1", "C", "M1", "F1", "D"⟩])], [("T", 40)]))] }

/-- Witness for `c1_selector`: the single 40-scored candidate is accepted at
threshold 35. -/
theorem c1_selector_witness :
    findCandidateProducts oneReconciler ⟨"T", "M", "USD", 200⟩ =
      some [(⟨"P1", "C", "M1", "F1", "D"⟩, 40)]
  ∧ (sortHits [(⟨"P1", "C", "M1", "F1", "D"⟩, 40)]).getLast? =
      some (⟨"P1", "C", "M1", "F1", "D"⟩, 40)
  ∧ ((35:ℚ) < 40)
  ∧ (sortHits [(⟨"P1", "C", "M1", "F1", "D"⟩, 40)]).dropLast.getLast? = none
  ∧ reconcileStep oneReconciler 35 ([], []) ⟨"T", "M", "USD", 200⟩ =
      some (appendAt (Product.product_name ⟨"P1", "C", "M1", "F1", "D"⟩)
        ⟨"T", "M", "USD", 200⟩ [], []) := by
  have h1 : findCandidateProducts oneReconciler ⟨"T", "M", "USD", 200⟩ =
      some [(⟨"P1", "C", "M1", "F1", "D"⟩, 40)] := by with_unfolding_all decide
  have h2 : (sortHits [((⟨"P1", "C", "M1", "F1", "D"⟩ : Product), (40:ℚ))]).getLast? =
      some (⟨"P1", "C", "M1", "F1", "D"⟩, 40) := by with_unfolding_all decide
  have h3 : (35:ℚ) < 40 := by norm_num
  have h4 : (sortHits [((⟨"P1", "C", "M1", "F1", "D"⟩ : Product), (40:ℚ))]).dropLast.getLast? =
      none := by with_unfolding_all decide
  exact ⟨h1, h2, h3, h4,
    (((c1_selector oneReconciler 35 ([], []) ⟨"T", "M", "USD", 200⟩
      [(⟨"P1", "C", "M1", "F1", "D"⟩, 40)] h1).2 ⟨"P1", "C", "M1", "F1", "D"⟩ 40
      h2).2.2.1 h3 h4)⟩

/-! ### Determinism of the manufacturer resolver (claim C6) -/

/-- Number of whitespace tokens of a manufacturer name. -/
def tokenCount (s : String) : Nat := (pySplit s).length

/-- The deterministic processing order the spec's corrective mandates:
descending token count, ties broken lexicographically. -/
def detLess (a b : String) : Prop :=
  tokenCount b < tokenCount a ∨ (tokenCount a = tokenCount b ∧ a ≤ b)

instance : DecidableRel detLess := fun a b => by unfold detLess; exact inferInstance

instance : IsTotal String detLess := ⟨fun a b => by
  unfold detLess
  rcases lt_trichotomy (tokenCount a) (tokenCount b) with h | h | h
  · exact Or.inr (Or.inl h)
  · rcases le_total a b with hab | hba
    · exact Or.inl (Or.inr ⟨h, hab⟩)
    · exact Or.inr (Or.inr ⟨h.symm, hba⟩)
  · exact Or.inl (Or.inl h)⟩

instance : IsTrans String detLess := ⟨fun a b c hab hbc => by
  unfold detLess at *
  rcases hab with h1 | ⟨h1, h1'⟩ <;> rcases hbc with h2 | ⟨h2, h2'⟩
  · exact Or.inl (lt_trans h2 h1)
  · exact Or.inl (by omega)
  · exact Or.inl (by omega)
  · exact Or.inr ⟨by omega, le_trans h1' h2'⟩⟩

instance : IsAntisymm String detLess := ⟨fun a b hab hba => by
  unfold detLess at *
  rcases hab with h1 | ⟨h1, h1'⟩ <;> rcases hba with h2 | ⟨h2, h2'⟩
  · omega
  · omega
  · omega
  · exact le_antisymm h1' h2'⟩

theorem insertionSort_eq_of_perm {α : Type} (r : α → α → Prop) [DecidableRel r]
    [IsTotal α r] [IsTrans α r] [IsAntisymm α r] {l₁ l₂ : List α} (h : l₁.Perm l₂) :
    List.insertionSort r l₁ = List.insertionSort r l₂ :=
  List.eq_of_perm_of_sorted
    ((List.perm_insertionSort r l₁).trans (h.trans (List.perm_insertionSort r l₂).symm))
    (List.sorted_insertionSort r l₁) (List.sorted_insertionSort r l₂)

/-- The determinized resolver the spec mandates (spec-side definition): the
source's resolver with both set-iteration orders fixed by sorting — the
canonical manufacturers in the mandated order, the listing manufacturers
lexicographically (their order within one round cannot affect the map). -/
def detManufacturerNormalizer (listing_manufacturers product_manufacturers : List String) :
    List (String × String) :=
  manufacturerNormalizer
    (List.insertionSort (fun a b : String => a ≤ b) listing_manufacturers)
    (List.insertionSort detLess product_manufacturers)

/-- C6 (amended): the resolver as implemented iterates Python sets, so its
result can depend on the iteration order (see the counterexample); under the
spec's corrective — a fixed deterministic processing order — the result is
the same mapping for any two runs, regardless of the order in which the
input collections are presented. -/
theorem c6_det_resolver (lm₁ lm₂ pm₁ pm₂ : List String)
    (hl : lm₁.Perm lm₂) (hp : pm₁.Perm pm₂) :
    detManufacturerNormalizer lm₁ pm₁ = detManufacturerNormalizer lm₂ pm₂ := by
  unfold detManufacturerNormalizer
  rw [insertionSort_eq_of_perm _ hl, insertionSort_eq_of_perm detLess hp]

/-- C6 counterexample: the undeterminized resolver of the source gives
different mappings for the same canonical set `{"A", "AB"}` presented in its
two iteration orders — the raw manufacturer `"AB"` is claimed by whichever
canonical name is processed first, so the code's set iteration is not
order-independent and in particular does not follow the claim's fixed sorted
order. -/
theorem c6_det_resolver_counterexample :
    manufacturerNormalizer ["AB"] ["A", "AB"] = [("AB", "A")]
  ∧ manufacturerNormalizer ["AB"] ["AB", "A"] = [("AB", "AB")]
  ∧ manufacturerNormalizer ["AB"] ["A", "AB"] ≠
      manufacturerNormalizer ["AB"] ["AB", "A"] := by
  refine ⟨?_, ?_, ?_⟩ <;> decide

/-- Witness for `c6_det_resolver` on permuted concrete collections. -/
theorem c6_det_resolver_witness :
    detManufacturerNormalizer ["Canon Canada", "Sony"] ["Canon", "Konica Minolta"] =
      detManufacturerNormalizer ["Sony", "Canon Canada"] ["Konica Minolta", "Canon"] :=
  c6_det_resolver ["Canon Canada", "Sony"] ["Sony", "Canon Canada"]
    ["Canon", "Konica Minolta"] ["Konica Minolta", "Canon"] (by decide) (by decide)

/-! ### The empty product token can never match (claim C10) -/

theorem ngrams_ne_empty (n : Nat) (bits : List String) (w : String)
    (hw : w ∈ ngrams n bits) : w ≠ "" := by
  intro hempty
  subst hempty
  exact absurd (List.mem_filter.mp hw).2 (by decide)

theorem lookup_appendAt {β : Type} (w k : String) (v : β) :
    ∀ m : List (String × List β), List.lookup w (appendAt k v m) =
      if w = k then some ((List.lookup w m).getD [] ++ [v]) else List.lookup w m := by
  intro m
  induction m with
  | nil =>
    simp only [appendAt, List.lookup]
    by_cases h : w = k
    · subst h; simp
    · simp [h, beq_false_of_ne h]
  | cons e rest ih =>
    obtain ⟨k', vs⟩ := e
    simp only [appendAt]
    by_cases hk : k' = k
    · subst hk
      simp only [beq_self_eq_true, if_true, List.lookup]
      by_cases hw2 : w = k'
      · subst hw2; simp
      · simp [beq_false_of_ne hw2, hw2]
    · rw [if_neg (by simpa using hk)]
      by_cases hw2 : w = k'
      · subst hw2
        simp only [List.lookup, beq_self_eq_true]
        rw [if_neg hk]
      · simp only [List.lookup, beq_false_of_ne hw2]
        exact ih

theorem mem_lookup_appendAt_mono {β : Type} (x : β) (w k : String) (v : β)
    (m : List (String × List β)) (hx : x ∈ (List.lookup w m).getD []) :
    x ∈ (List.lookup w (appendAt k v m)).getD [] := by
  rw [lookup_appendAt]
  by_cases hwk : w = k
  · rw [if_pos hwk]
    simp only [Option.getD_some]
    exact List.mem_append_left _ hx
  · rw [if_neg hwk]
    exact hx

theorem mem_lookup_appendAt_self {β : Type} (k : String) (v : β)
    (m : List (String × List β)) :
    v ∈ (List.lookup k (appendAt k v m)).getD [] := by
  rw [lookup_appendAt, if_pos rfl]
  simp

theorem mem_lookup_foldl_byManu_mono (x : Product) (w : String) :
    ∀ (qs : List Product) (m : List (String × List Product)),
      x ∈ (List.lookup w m).getD [] →
      x ∈ (List.lookup w (qs.foldl (fun m' q => appendAt q.manufacturer q m') m)).getD [] := by
  intro qs
  induction qs with
  | nil => intro m hx; exact hx
  | cons q qs' ih =>
    intro m hx
    simp only [List.foldl_cons]
    exact ih _ (mem_lookup_appendAt_mono x w _ q m hx)

theorem mem_lookup_byManu (p : Product) :
    ∀ (ps : List Product) (m : List (String × List Product)), p ∈ ps →
      p ∈ (List.lookup p.manufacturer
        (ps.foldl (fun m' q => appendAt q.manufacturer q m') m)).getD [] := by
  intro ps
  induction ps with
  | nil => intro m h; cases h
  | cons q qs ih =>
    intro m hmem
    simp only [List.foldl_cons]
    rcases List.mem_cons.mp hmem with hq | htail
    · subst hq
      exact mem_lookup_foldl_byManu_mono p p.manufacturer qs _
        (mem_lookup_appendAt_self p.manufacturer p m)
    · exact ih _ htail

theorem mem_lookup_foldl_wordMap_mono (x : Product) (w : String) :
    ∀ (qs : List Product) (wm : List (String × List Product)),
      x ∈ (List.lookup w wm).getD [] →
      x ∈ (List.lookup w (qs.foldl
        (fun wm' q => appendAt (normalize q.model) q
          (appendAt (normalize q.family) q wm')) wm)).getD [] := by
  intro qs
  induction qs with
  | nil => intro wm hx; exact hx
  | cons q qs' ih =>
    intro wm hx
    simp only [List.foldl_cons]
    exact ih _ (mem_lookup_appendAt_mono x w _ q _ (mem_lookup_appendAt_mono x w _ q wm hx))

theorem mem_lookup_wordMap (p : Product) :
    ∀ (ps : List Product) (wm : List (String × List Product)), p ∈ ps →
      p ∈ (List.lookup (normalize p.family) (ps.foldl
        (fun wm' q => appendAt (normalize q.model) q
          (appendAt (normalize q.family) q wm')) wm)).getD [] := by
  intro ps
  induction ps with
  | nil => intro wm h; cases h
  | cons q qs ih =>
    intro wm hmem
    simp only [List.foldl_cons]
    rcases List.mem_cons.mp hmem with hq | htail
    · subst hq
      exact mem_lookup_foldl_wordMap_mono p (normalize p.family) qs _
        (mem_lookup_appendAt_mono p (normalize p.family) _ p _
          (mem_lookup_appendAt_self (normalize p.family) p wm))
    · exact ih _ htail

theorem lookup_map_pair {β γ : Type} (g : String → β → γ) (k : String) :
    ∀ l : List (String × β),
      List.lookup k (l.map (fun e => (e.1, g e.1 e.2))) = (List.lookup k l).map (g k) := by
  intro l
  induction l with
  | nil => rfl
  | cons e rest ih =>
    obtain ⟨k', b⟩ := e
    by_cases hk : k = k'
    · subst hk; simp [List.lookup]
    · simp only [List.map_cons, List.lookup, beq_false_of_ne hk]
      exact ih

theorem lookup_buildProductFrequencies (mlog : ℚ → ℚ) (k : String)
    (products : List Product) :
    List.lookup k (buildProductFrequencies mlog products) =
      (List.lookup k (products.foldl (fun m q => appendAt q.manufacturer q m) [])).map
        (manufacturerEntry mlog) :=
  lookup_map_pair (fun _ prods => manufacturerEntry mlog prods) k
    (products.foldl (fun m (q : Product) => appendAt q.manufacturer q m) [])

/-- Drop one key from an association list (used to state that the empty
token entry is never consulted). -/
def eraseKey {β : Type} (k : String) : List (String × β) → List (String × β)
  | [] => []
  | e :: rest => if e.1 == k then eraseKey k rest else e :: eraseKey k rest

theorem lookup_eraseKey_ne {β : Type} (w k : String) (h : w ≠ k) :
    ∀ m : List (String × β), List.lookup w (eraseKey k m) = List.lookup w m := by
  intro m
  induction m with
  | nil => rfl
  | cons e rest ih =>
    obtain ⟨k', v⟩ := e
    simp only [eraseKey]
    by_cases hk : k' = k
    · subst hk
      rw [if_pos (by simp), ih]
      simp [List.lookup, beq_false_of_ne h]
    · rw [if_neg (by simp [hk])]
      by_cases hw2 : w = k'
      · subst hw2; simp [List.lookup]
      · simp only [List.lookup, beq_false_of_ne hw2]
        exact ih

/-- The reconciler state with the empty-token entry removed from every
manufacturer's product-token table (spec-side transformation for C10). -/
def eraseEmptyToken (r : Reconciler) : Reconciler :=
  { r with
    words_by_manufacturer := r.words_by_manufacturer.map
      (fun e => (e.1, (eraseKey "" e.2.1, eraseKey "" e.2.2))) }

theorem listingGrams_ne_empty (l : Listing) (w : String) (hw : w ∈ listingGrams l) :
    w ≠ "" := by
  rcases List.mem_append.mp hw with h | h
  · exact ngrams_ne_empty 1 _ w h
  · exact ngrams_ne_empty 2 _ w h

theorem scoreFold_eraseKey (manufacturer : String)
    (lws : List (String × ℚ)) (wm : List (String × List Product))
    (ws : List (String × ℚ)) :
    ∀ (words : List String), (∀ w ∈ words, w ≠ "") →
    ∀ results : List (Product × ℚ),
      words.foldlM
        (fun (results : List (Product × ℚ)) (word : String) =>
          let dampener := (List.lookup word lws).getD 1
          match List.lookup word (eraseKey "" wm) with
          | none => some results
          | some word_products =>
            match List.lookup word (eraseKey "" ws) with
            | none => none
            | some score_incr =>
              some (word_products.foldl
                (fun (res : List (Product × ℚ)) (p : Product) =>
                  if p.manufacturer == manufacturer
                  then addScore p (score_incr * dampener) res
                  else res)
                results))
        results =
      words.foldlM
        (fun (results : List (Product × ℚ)) (word : String) =>
          let dampener := (List.lookup word lws).getD 1
          match List.lookup word wm with
          | none => some results
          | some word_products =>
            match List.lookup word ws with
            | none => none
            | some score_incr =>
              some (word_products.foldl
                (fun (res : List (Product × ℚ)) (p : Product) =>
                  if p.manufacturer == manufacturer
                  then addScore p (score_incr * dampener) res
                  else res)
                results))
        results := by
  intro words
  induction words with
  | nil => intro _ results; rfl
  | cons w ws' ih =>
    intro hne results
    have hw : w ≠ "" := hne w (List.mem_cons_self _ _)
    rw [List.foldlM_cons, List.foldlM_cons]
    dsimp only
    rw [lookup_eraseKey_ne w "" hw wm, lookup_eraseKey_ne w "" hw ws]
    cases List.lookup w wm with
    | none =>
      exact ih (fun x hx => hne x (List.mem_cons_of_mem _ hx)) results
    | some word_products =>
      cases List.lookup w ws with
      | none => rfl
      | some score_incr =>
        exact ih (fun x hx => hne x (List.mem_cons_of_mem _ hx)) _

/-- C10: the n-gram generator never yields the empty token; the
per-manufacturer product token table does map the empty string (here coming
from a product whose normalized family is empty, the default) to its owning
products; and the candidate scorer's result is unchanged when the
empty-token entry is removed from every manufacturer's table — the entry can
never match a title token, so a product with an empty family can only score
through its model token. -/
theorem c10_empty_token (n : Nat) (bits : List String) (w : String)
    (hw : w ∈ ngrams n bits)
    (mlog : ℚ → ℚ) (products : List Product) (p : Product)
    (hp : p ∈ products) (hf : normalize p.family = "")
    (r : Reconciler) (l : Listing) :
    w ≠ ""
  ∧ (∃ wm ws, List.lookup p.manufacturer (buildProductFrequencies mlog products) =
      some (wm, ws) ∧ p ∈ (List.lookup "" wm).getD [])
  ∧ findCandidateProducts (eraseEmptyToken r) l = findCandidateProducts r l := by
  refine ⟨ngrams_ne_empty n bits w hw, ?_, ?_⟩
  · have hby := mem_lookup_byManu p products [] hp
    cases hlook : List.lookup p.manufacturer
        (products.foldl (fun m' q => appendAt q.manufacturer q m') []) with
    | none => rw [hlook] at hby; cases hby
    | some prods =>
      rw [hlook] at hby
      simp only [Option.getD_some] at hby
      have heq := lookup_buildProductFrequencies mlog p.manufacturer products
      rw [hlook, Option.map_some'] at heq
      refine ⟨(manufacturerEntry mlog prods).1, (manufacturerEntry mlog prods).2,
        by rw [heq], ?_⟩
      have hmem := mem_lookup_wordMap p prods [] hby
      rw [hf] at hmem
      exact hmem
  · unfold findCandidateProducts
    have hra : (eraseEmptyToken r).ratios = r.ratios := rfl
    have hmm : (eraseEmptyToken r).manufacturer_map = r.manufacturer_map := rfl
    have hls : (eraseEmptyToken r).list_word_score = r.list_word_score := rfl
    rw [hra, hmm, hls]
    cases isCamera r.ratios l with
    | none => rfl
    | some cam =>
      cases cam with
      | false => rfl
      | true =>
        dsimp only
        rw [if_neg (by simp), if_neg (by simp)]
        cases List.lookup (pyUpper l.manufacturer) r.manufacturer_map with
        | none => rfl
        | some manufacturer =>
          dsimp only
          have hwb : (eraseEmptyToken r).words_by_manufacturer =
              r.words_by_manufacturer.map
                (fun e => (e.1, (eraseKey "" e.2.1, eraseKey "" e.2.2))) := rfl
          rw [hwb, lookup_map_pair
            (fun _ (ws : List (String × List Product) × List (String × ℚ)) =>
              (eraseKey "" ws.1, eraseKey "" ws.2))]
          cases List.lookup manufacturer r.words_by_manufacturer with
          | none => rfl
          | some ws =>
            dsimp only [Option.map_some']
            exact scoreFold_eraseKey manufacturer r.list_word_score ws.1 ws.2
              (listingGrams l) (fun x hx => listingGrams_ne_empty l x hx) []

/-- Witness for `c10_empty_token` at concrete inputs: the token `"A"` of
`ngrams 1 ["A"]`, a one-product catalog whose product has the default empty
family, and an empty reconciler state. -/
theorem c10_empty_token_witness :
    "A" ∈ ngrams 1 ["A"]
  ∧ (⟨"N", "C", "M", "", "D"⟩ : Product) ∈ [(⟨"N", "C", "M", "", "D"⟩ : Product)]
  ∧ normalize (Product.family ⟨"N", "C", "M", "", "D"⟩) = ""
  ∧ "A" ≠ ""
  ∧ (∃ wm ws, List.lookup (Product.manufacturer ⟨"N", "C", "M", "", "D"⟩)
      (buildProductFrequencies (fun q => q) [⟨"N", "C", "M", "", "D"⟩]) = some (wm, ws)
      ∧ (⟨"N", "C", "M", "", "D"⟩ : Product) ∈ (List.lookup "" wm).getD [])
  ∧ findCandidateProducts (eraseEmptyToken (Reconciler.mk usdTable [] [] [] [] []))
      (mkUSD 5) =
    findCandidateProducts (Reconciler.mk usdTable [] [] [] [] []) (mkUSD 5) := by
  have h := c10_empty_token 1 ["A"] "A" (by decide) (fun q => q)
    [⟨"N", "C", "M", "", "D"⟩] ⟨"N", "C", "M", "", "D"⟩ (by decide) (by decide)
    (Reconciler.mk usdTable [] [] [] [] []) (mkUSD 5)
  exact ⟨by decide, by decide, by decide, h.1, h.2.1, h.2.2⟩

end SortableMatcher
